import Mathlib

/-!
Verification development for the single-threaded async executor with timers
(source: src/projects/06_timers/src/main.rs).

Shallow embedding conventions:
* `Instant` and `Duration` are `Nat` (the source uses a monotonic clock;
  `Instant::now()` observations become explicit `now : Nat` arguments).
* A `Task` is identified by a `Nat` id; the ready queue `Worker.tasks` is a
  `List Nat` whose head is the front of the `VecDeque`.
* A `Waker` built from `SimpleWaker` is modelled by the `SimpleWaker` record
  itself: `runtime : Bool` says whether `Weak::upgrade` on the runtime
  succeeds, `task : Option Nat` is the task the waker refers to (`none` is
  the root task), exactly as in the source struct.
* The `BinaryHeap<TimerEntry>` (a min-heap on `deadline`, via the reversed
  `Ord` impl) is modelled as a `List TimerEntry` with a pop-min operation
  `popMinEntry`; ties on `deadline` are broken by position, which is one of
  the behaviours the source's heap is allowed to exhibit.
* Panics (`expect`, lock poisoning aside) are modelled with `Except String`.
-/

/-- The tri-state run flag of the worker (source `enum WorkerState`). -/
inductive WorkerState where
  | Running
  | Parked
  | Ready
deriving DecidableEq

/-- Source `struct SimpleWaker { runtime: Weak<Runtime>, task: Option<Arc<Task>> }`.
`runtime = true` models a weak reference whose `upgrade()` succeeds. -/
structure SimpleWaker where
  runtime : Bool
  task : Option Nat
deriving DecidableEq

/-- Source `struct TimerEntry { deadline: Instant, waker: Waker }`. -/
structure TimerEntry where
  deadline : Nat
  waker : SimpleWaker
deriving DecidableEq

/-- Source `struct Worker`: root-ready flag, FIFO ready queue, timer heap,
and the worker state, all guarded by one lock. -/
structure Worker where
  root_task : Bool
  tasks : List Nat
  timers : List TimerEntry
  state : WorkerState
deriving DecidableEq

/-- Source `impl Wake for SimpleWaker { fn wake(self: Arc<Self>) }`:
upgrade the weak runtime reference (no-op on failure); under the worker
lock push the task to the back of the queue (or set the root flag), call
`notify_one` if the observed state is `Parked`, then set the state to
`Ready`.  The returned `Bool` records whether `notify_one` was called. -/
def SimpleWaker.wake (s : SimpleWaker) (w : Worker) : Worker × Bool :=
  if s.runtime then
    let w1 :=
      match s.task with
      | some t => { w with tasks := w.tasks ++ [t] }
      | none => { w with root_task := true }
    ({ w1 with state := WorkerState.Ready }, decide (w1.state = WorkerState.Parked))
  else
    (w, false)

/-- The body of `spawn` once the runtime handle is present: push a fresh
task to the back of the ready queue, `notify_one` if the worker is
`Parked`, set the state to `Ready`. -/
def spawnLocked (t : Nat) (w : Worker) : Worker × Bool :=
  let w1 := { w with tasks := w.tasks ++ [t] }
  ({ w1 with state := WorkerState.Ready }, decide (w1.state = WorkerState.Parked))

/-- Source `pub fn spawn`: reads the thread-local `RUNTIME`; if none is
installed, `expect("runtime should be set")` panics; otherwise performs
`spawnLocked` under the worker lock. -/
def spawn (t : Nat) (rt : Option Worker) : Except String (Worker × Bool) :=
  match rt with
  | none => Except.error "runtime should be set"
  | some w => Except.ok (spawnLocked t w)

theorem wake_dead (s : SimpleWaker) (w : Worker) (h : s.runtime = false) :
    s.wake w = (w, false) := by
  simp [SimpleWaker.wake, h]

theorem wake_timers (s : SimpleWaker) (w : Worker) :
    ((s.wake w).1).timers = w.timers := by
  rcases s with ⟨r, t⟩
  cases r <;> cases t <;> simp [SimpleWaker.wake]

theorem wake_state (s : SimpleWaker) (w : Worker) (h : s.runtime = true) :
    ((s.wake w).1).state = WorkerState.Ready := by
  rcases s with ⟨r, t⟩
  cases t <;> simp_all [SimpleWaker.wake]

theorem wake_snd (s : SimpleWaker) (w : Worker) :
    (s.wake w).2 = (s.runtime && decide (w.state = WorkerState.Parked)) := by
  rcases s with ⟨r, t⟩
  cases r <;> cases t <;> simp [SimpleWaker.wake]

theorem wake_root (s : SimpleWaker) (w : Worker) :
    ((s.wake w).1).root_task = (w.root_task || (s.runtime && s.task.isNone)) := by
  rcases s with ⟨r, t⟩
  cases r <;> cases t <;> simp [SimpleWaker.wake]

theorem wake_tasks (s : SimpleWaker) (w : Worker) (t : Nat)
    (hr : s.runtime = true) (ht : s.task = some t) :
    ((s.wake w).1).tasks = w.tasks ++ [t] := by
  simp [SimpleWaker.wake, hr, ht]

theorem wake_tasks_root (s : SimpleWaker) (w : Worker)
    (hr : s.runtime = true) (ht : s.task = none) :
    ((s.wake w).1).tasks = w.tasks := by
  simp [SimpleWaker.wake, hr, ht]

/-- `wake` neither reads nor keeps the `timers` field: replacing it
commutes with waking. -/
theorem wake_setTimers (s : SimpleWaker) (w : Worker) (ts : List TimerEntry) :
    s.wake { w with timers := ts } =
      (({ (s.wake w).1 with timers := ts }), (s.wake w).2) := by
  rcases s with ⟨r, t⟩
  cases r <;> cases t <;> simp [SimpleWaker.wake]

/-- `wake` never reads the `root_task` flag: its behaviour on the other
fields is unchanged when the flag is replaced, and the flag itself is
or-ed with exactly the "live root waker" condition. -/
theorem wake_setRoot (s : SimpleWaker) (w : Worker) (b : Bool) :
    s.wake { w with root_task := b } =
      (({ (s.wake w).1 with root_task := b || (s.runtime && s.task.isNone) }),
        (s.wake w).2) := by
  rcases s with ⟨r, t⟩
  cases r <;> cases t <;> simp [SimpleWaker.wake]

/-- Pop-min of the timer heap: returns an entry of minimal `deadline`
together with the rest of the heap (order of the rest preserved; ties on
`deadline` resolved towards the earlier position).  This models
`BinaryHeap::peek_mut` + `PeekMut::pop` under the reversed `Ord` on
`TimerEntry`, which makes the heap a min-heap on `deadline`. -/
def popMinEntry : List TimerEntry → Option (TimerEntry × List TimerEntry)
  | [] => none
  | e :: es =>
    match popMinEntry es with
    | none => some (e, [])
    | some (m, rest) =>
      if e.deadline ≤ m.deadline then some (e, es) else some (m, e :: rest)

theorem popMinEntry_eq_none (l : List TimerEntry) :
    popMinEntry l = none ↔ l = [] := by
  induction l with
  | nil => simp [popMinEntry]
  | cons e es ih =>
    simp only [popMinEntry]
    rcases h : popMinEntry es with _ | ⟨m, rest⟩
    · simp
    · simp only []
      constructor
      · intro hc
        by_cases hle : e.deadline ≤ m.deadline <;> simp [hle] at hc
      · intro hc
        exact absurd hc (List.cons_ne_nil e es)

/-- Structure of a successful pop-min: the popped entry occupies some
position of the heap, the rest is the heap with that position removed
(order preserved), and the popped deadline is minimal. -/
theorem popMinEntry_spec (l : List TimerEntry) (e : TimerEntry)
    (rest : List TimerEntry) (h : popMinEntry l = some (e, rest)) :
    (∃ l1 l2, l = l1 ++ e :: l2 ∧ rest = l1 ++ l2) ∧
      ∀ x ∈ l, e.deadline ≤ x.deadline := by
  induction l generalizing e rest with
  | nil => simp [popMinEntry] at h
  | cons a as ih =>
    simp only [popMinEntry] at h
    rcases hm : popMinEntry as with _ | ⟨m, r⟩
    · rw [hm] at h
      simp only [Option.some.injEq, Prod.mk.injEq] at h
      obtain ⟨he, hr⟩ := h
      have has : as = [] := (popMinEntry_eq_none as).1 hm
      subst he; subst has
      refine ⟨⟨[], [], by simp, by simp [← hr]⟩, ?_⟩
      intro x hx
      simp at hx
      simp [hx]
    · rw [hm] at h
      simp only [] at h
      obtain ⟨⟨m1, m2, hmas, hmr⟩, hmin⟩ := ih m r hm
      by_cases hle : a.deadline ≤ m.deadline
      · simp only [if_pos hle, Option.some.injEq, Prod.mk.injEq] at h
        obtain ⟨he, hr⟩ := h
        subst he; subst hr
        refine ⟨⟨[], as, rfl, rfl⟩, ?_⟩
        intro x hx
        rcases List.mem_cons.1 hx with hx | hx
        · simp [hx]
        · exact le_trans hle (hmin x hx)
      · simp only [if_neg hle, Option.some.injEq, Prod.mk.injEq] at h
        obtain ⟨he, hr⟩ := h
        subst he; subst hr
        refine ⟨⟨a :: m1, m2, by simp [hmas], by simp [hmr]⟩, ?_⟩
        intro x hx
        rcases List.mem_cons.1 hx with hx | hx
        · subst hx
          exact le_of_lt (lt_of_not_le hle)
        · exact hmin x hx

theorem popMinEntry_length (l : List TimerEntry) (e : TimerEntry)
    (rest : List TimerEntry) (h : popMinEntry l = some (e, rest)) :
    rest.length < l.length := by
  obtain ⟨⟨l1, l2, hl, hr⟩, _⟩ := popMinEntry_spec l e rest h
  subst hl; subst hr
  simp [Nat.lt_succ_self]

/-- Source `Worker::update_timers`: repeatedly peek the earliest timer;
if its deadline is still in the future return the remaining duration as
the park timeout; otherwise pop it, release the worker lock, invoke its
waker (which mutates the worker it can reach through the runtime), and
re-acquire the lock.  Returns the re-acquired worker, the timeout
(`none` when the heap was left empty), and the list of popped entries in
pop order.  `Instant::now()` is modelled as the fixed observation `now`
(no time passes inside the model). -/
def Worker.update_timers (now : Nat) (w : Worker) :
    Worker × Option Nat × List TimerEntry :=
  match hp : popMinEntry w.timers with
  | none => (w, none, [])
  | some (e, rest) =>
    if now < e.deadline then
      (w, some (e.deadline - now), [])
    else
      let w1 := (e.waker.wake { w with timers := rest }).1
      let r := Worker.update_timers now w1
      (r.1, r.2.1, e :: r.2.2)
termination_by w.timers.length
decreasing_by
  simp only [wake_timers]
  exact popMinEntry_length w.timers e rest hp

theorem update_timers_none (now : Nat) (w : Worker)
    (h : popMinEntry w.timers = none) :
    Worker.update_timers now w = (w, none, []) := by
  rw [Worker.update_timers]
  split
  · rfl
  · next e rest hp => rw [h] at hp; exact absurd hp (by simp)

theorem update_timers_pending (now : Nat) (w : Worker) (e : TimerEntry)
    (rest : List TimerEntry) (h : popMinEntry w.timers = some (e, rest))
    (hlt : now < e.deadline) :
    Worker.update_timers now w = (w, some (e.deadline - now), []) := by
  rw [Worker.update_timers]
  split
  · next hp => rw [h] at hp; exact absurd hp (by simp)
  · next e' rest' hp =>
    rw [h] at hp
    obtain ⟨he, hr⟩ := Prod.mk.injEq .. ▸ (Option.some.inj hp)
    subst he; subst hr
    simp [hlt]

theorem update_timers_pop (now : Nat) (w : Worker) (e : TimerEntry)
    (rest : List TimerEntry) (h : popMinEntry w.timers = some (e, rest))
    (hle : ¬ now < e.deadline) :
    Worker.update_timers now w =
      (let r := Worker.update_timers now ((e.waker.wake { w with timers := rest }).1)
       (r.1, r.2.1, e :: r.2.2)) := by
  rw [Worker.update_timers]
  split
  · next hp => rw [h] at hp; exact absurd hp (by simp)
  · next e' rest' hp =>
    rw [h] at hp
    obtain ⟨he, hr⟩ := Prod.mk.injEq .. ▸ (Option.some.inj hp)
    subst he; subst hr
    simp [hle]

/-- The ready-queue drain loop of `block_on` (source lines 156-171):
`while let Some(task) = worker.tasks.pop_front()` — drop the lock, poll the
task with a fresh waker (the poll's effect on the worker is the function
`poll`), re-acquire the lock.  Returns the final worker and the tasks
polled, in poll order.  `fuel` bounds the iterations; the source loop may
run forever if polls keep enqueueing (the documented starvation caveat). -/
def drainLoop (poll : Nat → Worker → Worker) : Nat → Worker → Worker × List Nat
  | 0, w => (w, [])
  | fuel + 1, w =>
    match w.tasks with
    | [] => (w, [])
    | t :: rest =>
      let w1 := poll t { w with tasks := rest }
      let r := drainLoop poll fuel w1
      (r.1, t :: r.2)

/-- Fire the wakers of the given tasks in order, each through a live
`SimpleWaker` bound to that task (the situation of claim C3). -/
def fireAll (ts : List Nat) (w : Worker) : Worker :=
  ts.foldl (fun a t => (SimpleWaker.wake ⟨true, some t⟩ a).1) w

theorem fireAll_tasks (ts : List Nat) (w : Worker) :
    (fireAll ts w).tasks = w.tasks ++ ts := by
  induction ts generalizing w with
  | nil => simp [fireAll]
  | cons t ts ih =>
    have h1 := wake_tasks ⟨true, some t⟩ w t rfl rfl
    simp only [fireAll, List.foldl_cons]
    rw [show List.foldl (fun a t => (SimpleWaker.wake ⟨true, some t⟩ a).1)
        ((SimpleWaker.wake ⟨true, some t⟩ w).1) ts
        = fireAll ts ((SimpleWaker.wake ⟨true, some t⟩ w).1) from rfl]
    rw [ih, h1]
    simp

/-- A drain with polls that leave the worker untouched (no further
wakeups) visits exactly the initial queue, front to back. -/
theorem drainLoop_id (l : List Nat) : ∀ (fuel : Nat) (w : Worker),
    w.tasks = l → l.length ≤ fuel →
    (drainLoop (fun _ x => x) fuel w).2 = l ∧
      ((drainLoop (fun _ x => x) fuel w).1).tasks = [] := by
  induction l with
  | nil =>
    intro fuel w hw _
    cases fuel with
    | zero => simpa [drainLoop] using hw
    | succ n => simp [drainLoop, hw]
  | cons t rest ih =>
    intro fuel w hw hlen
    cases fuel with
    | zero => simp at hlen
    | succ n =>
      have h := ih n { w with tasks := rest } rfl (by simpa using Nat.le_of_succ_le_succ hlen)
      simp [drainLoop, hw, h.1, h.2]

/-- The poll closure inside `sleep_until` (source lines 226-244), one
invocation: observe `now`; if the deadline has elapsed return
`Ready(now)`; otherwise, if not yet registered, read the thread-local
runtime (`expect` panics when absent) and push one `TimerEntry`, setting
the local `registered` flag; finally return `Pending`.  The result
carries the poll outcome (`some now` = Ready, `none` = Pending), the new
`registered` flag and the new runtime worker. -/
def sleepPollBody (deadline : Nat) (wk : SimpleWaker) (now : Nat)
    (rt : Option Worker) (registered : Bool) :
    Except String (Option Nat × Bool × Option Worker) :=
  if deadline ≤ now then
    Except.ok (some now, registered, rt)
  else if registered = false then
    match rt with
    | none => Except.error "runtime should be set"
    | some w =>
      Except.ok (none, true, some { w with timers := w.timers ++ [⟨deadline, wk⟩] })
  else
    Except.ok (none, registered, rt)

/-- A sequence of `sleep_until` polls at the given observation times,
with the runtime installed throughout, threading the `registered` flag
and the worker. -/
def sleepPolls (deadline : Nat) (wk : SimpleWaker) :
    List Nat → Bool × Worker → Bool × Worker
  | [], s => s
  | now :: ns, (reg, w) =>
    match sleepPollBody deadline wk now (some w) reg with
    | Except.ok (_, reg', some w') => sleepPolls deadline wk ns (reg', w')
    | _ => (reg, w)

theorem sleepPolls_timers_le (deadline : Nat) (wk : SimpleWaker)
    (ns : List Nat) : ∀ (reg : Bool) (w : Worker),
    ((sleepPolls deadline wk ns (reg, w)).2).timers.length ≤
      w.timers.length + (if reg then 0 else 1) := by
  induction ns with
  | nil => intro reg w; cases reg <;> simp [sleepPolls]
  | cons now ns ih =>
    intro reg w
    by_cases hd : deadline ≤ now
    · have := ih reg w
      simpa [sleepPolls, sleepPollBody, hd] using this
    · cases reg with
      | false =>
        have := ih true { w with timers := w.timers ++ [⟨deadline, wk⟩] }
        simp only [sleepPolls, sleepPollBody, if_neg hd] at *
        simp at this ⊢
        omega
      | true =>
        have := ih true w
        simp only [sleepPolls, sleepPollBody, if_neg hd] at *
        simp at this ⊢
        omega

/-- The thread-local `RUNTIME` discipline of `block_on` (source lines
141 and 200): save the previous handle with `RUNTIME.replace`, run the
driver loop `body` with the new handle installed (the body returns the
thread-local it leaves behind together with the loop's result), then
`RUNTIME.set(prev)` unconditionally on the way out.  Returns the final
thread-local value, the result, and the handle the body was started
with.  Runtimes are identified by a `Nat` id. -/
def blockOnTL (tl0 : Option Nat) (rtId : Nat)
    (body : Option Nat → Option Nat × Nat) : Option Nat × Nat × Option Nat :=
  let prev := tl0
  let installed : Option Nat := some rtId
  let r := body installed
  (prev, r.2, installed)

/-- Where the driver thread of `block_on` is in its control loop.
`polling` covers polling the root future and draining the ready queue
(source lines 151-174, lock dropped around each poll); `checking` is the
head of the park loop (line 178), about to test `state != Ready` under
the lock; `waiting` is blocked inside `Condvar::wait`/`wait_timeout`
(lines 183/190), having released the lock. -/
inductive DriverPC where
  | polling
  | checking
  | waiting
deriving DecidableEq

/-- A configuration of the concurrent system: the lock-protected worker,
the driver's position, and whether a `notify_one` has released the
driver's current wait and is not yet consumed.  Each step of the
transition relation is one critical section under the worker lock, so
the lock itself needs no explicit representation. -/
structure Config where
  worker : Worker
  pc : DriverPC
  notified : Bool
deriving DecidableEq

/-- The worker `block_on` creates (source lines 131-139) with the driver
about to poll the root future. -/
def initConfig : Config :=
  { worker := { root_task := false, tasks := [], timers := [], state := WorkerState.Running },
    pc := DriverPC.polling,
    notified := false }

/-- One atomic step of the system.  Wakers may fire from any thread at
any time; the driver's steps follow the source of `block_on`.  A
`notify_one` only releases the driver when it is actually inside a wait
(a condition-variable signal with no waiter is lost); the source
guarantees the signal is sent exactly when the observed state is
`Parked`, which the invariants below relate to the wait. -/
inductive Step : Config → Config → Prop where
  | wakeFire (c : Config) (s : SimpleWaker) :
      Step c { worker := (s.wake c.worker).1,
               pc := c.pc,
               notified := c.notified ||
                 ((s.wake c.worker).2 && decide (c.pc = DriverPC.waiting)) }
  | spawnTask (c : Config) (t : Nat) (hpc : c.pc = DriverPC.polling) :
      Step c { worker := (spawnLocked t c.worker).1,
               pc := DriverPC.polling,
               notified := c.notified ||
                 ((spawnLocked t c.worker).2 && decide (c.pc = DriverPC.waiting)) }
  | drainPop (c : Config) (t : Nat) (rest : List Nat)
      (hpc : c.pc = DriverPC.polling) (hq : c.worker.tasks = t :: rest) :
      Step c { worker := { c.worker with tasks := rest },
               pc := DriverPC.polling,
               notified := c.notified }
  | drainDone (c : Config) (hpc : c.pc = DriverPC.polling)
      (hq : c.worker.tasks = []) :
      Step c { c with pc := DriverPC.checking }
  | parkCheckReady (c : Config) (hpc : c.pc = DriverPC.checking)
      (hs : c.worker.state = WorkerState.Ready) :
      Step c { worker := { c.worker with state := WorkerState.Running },
               pc := DriverPC.polling,
               notified := c.notified }
  | parkCheckSleep (c : Config) (hpc : c.pc = DriverPC.checking)
      (hs : c.worker.state ≠ WorkerState.Ready) :
      Step c { worker := { c.worker with state := WorkerState.Parked },
               pc := DriverPC.waiting,
               notified := c.notified }
  | parkSignalled (c : Config) (hpc : c.pc = DriverPC.waiting)
      (hn : c.notified = true) :
      Step c { c with pc := DriverPC.checking, notified := false }
  | parkTimeout (c : Config) (hpc : c.pc = DriverPC.waiting) :
      Step c { c with pc := DriverPC.checking }

/-- Configurations reachable from the fresh `block_on` worker. -/
def Reachable (c : Config) : Prop :=
  Relation.ReflTransGen Step initConfig c

/-- The inductive invariant of the parking protocol: (1) whenever the
driver is inside a wait, either a notification is pending or the state
it published is still `Parked`; (2) a non-empty ready queue implies the
state is `Ready` or the driver is still in its polling/draining phase. -/
def ParkInv (c : Config) : Prop :=
  (c.pc = DriverPC.waiting → c.notified = true ∨ c.worker.state = WorkerState.Parked) ∧
  (c.worker.tasks ≠ [] → c.worker.state = WorkerState.Ready ∨ c.pc = DriverPC.polling)

theorem parkInv_init : ParkInv initConfig := by
  constructor <;> simp [initConfig, ParkInv]

theorem parkInv_step (c c' : Config) (h : Step c c') (ih : ParkInv c) :
    ParkInv c' := by
  obtain ⟨ih1, ih2⟩ := ih
  cases h with
  | wakeFire s =>
    constructor
    · intro hpc
      simp only at hpc
      by_cases hr : s.runtime = true
      · by_cases hp : c.worker.state = WorkerState.Parked
        · left
          simp [wake_snd, hr, hp, hpc]
        · rcases ih1 hpc with hn | hn
          · left; simp [hn]
          · exact absurd hn hp
      · have hd : s.runtime = false := by simpa using hr
        have hw := wake_dead s c.worker hd
        simp only [hw]
        simpa using ih1 hpc
    · intro ht
      by_cases hr : s.runtime = true
      · left
        exact wake_state s c.worker hr
      · have hd : s.runtime = false := by simpa using hr
        have hw := wake_dead s c.worker hd
        simp only [hw] at ht ⊢
        simpa using ih2 (by simpa using ht)
  | spawnTask t hpc =>
    refine ⟨by simp, ?_⟩
    intro _
    left
    simp [spawnLocked]
  | drainPop t rest hpc hq =>
    refine ⟨by simp, ?_⟩
    intro _
    right
    rfl
  | drainDone hpc hq =>
    refine ⟨by simp, ?_⟩
    intro ht
    simp only at ht
    exact absurd hq ht
  | parkCheckReady hpc hs =>
    refine ⟨by simp, ?_⟩
    intro _
    right
    rfl
  | parkCheckSleep hpc hs =>
    refine ⟨?_, ?_⟩
    · intro _
      right
      rfl
    · intro ht
      simp only at ht
      rcases ih2 ht with h | h
      · exact absurd h hs
      · rw [hpc] at h
        exact absurd h (by decide)
  | parkSignalled hpc hn =>
    refine ⟨by simp, ?_⟩
    intro ht
    simp only at ht
    rcases ih2 ht with h | h
    · left; exact h
    · rw [hpc] at h
      exact absurd h (by decide)
  | parkTimeout hpc =>
    refine ⟨by simp, ?_⟩
    intro ht
    simp only at ht
    rcases ih2 ht with h | h
    · left; exact h
    · rw [hpc] at h
      exact absurd h (by decide)

theorem parkInv_reachable (c : Config) (h : Reachable c) : ParkInv c := by
  induction h with
  | refl => exact parkInv_init
  | tail _ hstep ih => exact parkInv_step _ _ hstep ih

/-- `update_timers` never reads the `root_task` flag: flipping it changes
none of the other outputs. -/
theorem update_timers_root_blind (n : Nat) : ∀ (w : Worker), w.timers.length ≤ n →
    ∀ (b : Bool) (now : Nat),
    (Worker.update_timers now { w with root_task := b }).1.tasks =
        (Worker.update_timers now w).1.tasks ∧
    (Worker.update_timers now { w with root_task := b }).1.timers =
        (Worker.update_timers now w).1.timers ∧
    (Worker.update_timers now { w with root_task := b }).1.state =
        (Worker.update_timers now w).1.state ∧
    (Worker.update_timers now { w with root_task := b }).2 =
        (Worker.update_timers now w).2 := by
  induction n with
  | zero =>
    intro w hw b now
    have ht : w.timers = [] := by
      cases h : w.timers with
      | nil => rfl
      | cons a as => rw [h] at hw; simp at hw
    have h1 : popMinEntry w.timers = none := (popMinEntry_eq_none _).2 ht
    rw [update_timers_none now { w with root_task := b } h1, update_timers_none now w h1]
    simp
  | succ n ih =>
    intro w hw b now
    cases hp : popMinEntry w.timers with
    | none =>
      rw [update_timers_none now { w with root_task := b } hp, update_timers_none now w hp]
      simp
    | some pr =>
      obtain ⟨e, rest⟩ := pr
      by_cases hlt : now < e.deadline
      · rw [update_timers_pending now { w with root_task := b } e rest hp hlt,
            update_timers_pending now w e rest hp hlt]
        simp
      · rw [update_timers_pop now { w with root_task := b } e rest hp hlt,
            update_timers_pop now w e rest hp hlt]
        dsimp only
        have hcast : ({ w with root_task := b, timers := rest } : Worker)
            = { ({ w with timers := rest } : Worker) with root_task := b } := rfl
        have hwake := wake_setRoot e.waker { w with timers := rest } b
        have hlen : ((e.waker.wake { w with timers := rest }).1).timers.length ≤ n := by
          rw [wake_timers]
          show rest.length ≤ n
          have := popMinEntry_length w.timers e rest hp
          omega
        have hih := ih ((e.waker.wake { w with timers := rest }).1) hlen
          (b || (e.waker.runtime && e.waker.task.isNone)) now
        have hrw : (e.waker.wake { ({ w with timers := rest } : Worker) with root_task := b }).1
            = { ((e.waker.wake { w with timers := rest }).1) with
                root_task := b || (e.waker.runtime && e.waker.task.isNone) } := by
          rw [hwake]
        rw [hcast, hrw]
        refine ⟨hih.1, hih.2.1, hih.2.2.1, ?_⟩
        have h4 := hih.2.2.2
        rw [Prod.ext_iff] at h4 ⊢
        exact ⟨h4.1, by simp [h4.2]⟩

theorem wake_setTimers_fst (s : SimpleWaker) (w : Worker) (ts : List TimerEntry) :
    (s.wake { w with timers := ts }).1 = { (s.wake w).1 with timers := ts } := by
  rw [wake_setTimers]

/-- Full characterisation of `Worker::update_timers` at observation `now`:
the popped entries are due, the remaining heap is exactly the not-yet-due
entries, the pops come in ascending deadline order, nothing is lost or
duplicated, the returned timeout is the distance to the earliest
remaining deadline, and the resulting worker is the original (minus the
popped entries) with each popped waker invoked in pop order. -/
theorem update_timers_spec (n : Nat) : ∀ (w : Worker), w.timers.length ≤ n → ∀ (now : Nat),
    (∀ e ∈ (Worker.update_timers now w).2.2, e.deadline ≤ now) ∧
    ((Worker.update_timers now w).1).timers =
      w.timers.filter (fun e => decide (now < e.deadline)) ∧
    List.Sorted (fun a b : TimerEntry => a.deadline ≤ b.deadline)
      ((Worker.update_timers now w).2.2) ∧
    List.Perm w.timers
      ((Worker.update_timers now w).2.2 ++ ((Worker.update_timers now w).1).timers) ∧
    ((Worker.update_timers now w).2.1 =
      Option.map (fun p : TimerEntry × List TimerEntry => p.1.deadline - now)
        (popMinEntry (((Worker.update_timers now w).1).timers))) ∧
    (Worker.update_timers now w).1 =
      List.foldl (fun a e => (e.waker.wake a).1)
        { w with timers := w.timers.filter (fun e => decide (now < e.deadline)) }
        ((Worker.update_timers now w).2.2) := by
  induction n with
  | zero =>
    intro w hw now
    have ht : w.timers = [] := by
      cases h : w.timers with
      | nil => rfl
      | cons a as => rw [h] at hw; simp at hw
    have h1 : popMinEntry w.timers = none := (popMinEntry_eq_none _).2 ht
    rw [update_timers_none now w h1]
    refine ⟨by simp, by simp [ht], by simp, by simp, ?_, ?_⟩
    · dsimp only
      rw [h1]
      rfl
    · dsimp only [List.foldl_nil]
      rw [ht, List.filter_nil, ← ht]
  | succ n ih =>
    intro w hw now
    cases hp : popMinEntry w.timers with
    | none =>
      have ht : w.timers = [] := (popMinEntry_eq_none _).1 hp
      rw [update_timers_none now w hp]
      refine ⟨by simp, by simp [ht], by simp, by simp, ?_, ?_⟩
      · dsimp only
        rw [hp]
        rfl
      · dsimp only [List.foldl_nil]
        rw [ht, List.filter_nil, ← ht]
    | some pr =>
      obtain ⟨e, rest⟩ := pr
      obtain ⟨⟨l1, l2, hl, hr⟩, hmin⟩ := popMinEntry_spec w.timers e rest hp
      by_cases hlt : now < e.deadline
      · rw [update_timers_pending now w e rest hp hlt]
        have hall : ∀ x ∈ w.timers, decide (now < x.deadline) = true := by
          intro x hx
          simp only [decide_eq_true_eq]
          exact lt_of_lt_of_le hlt (hmin x hx)
        have hfid : w.timers.filter (fun e => decide (now < e.deadline)) = w.timers :=
          List.filter_eq_self.2 hall
        refine ⟨by simp, by simp [hfid], by simp, by simp, ?_, ?_⟩
        · dsimp only
          rw [hp]
          rfl
        · dsimp only [List.foldl_nil]
          rw [hfid]
      · -- pop case: e is due
        rw [update_timers_pop now w e rest hp hlt]
        dsimp only
        have hled : e.deadline ≤ now := Nat.le_of_not_lt hlt
        have hw1t : ((e.waker.wake { w with timers := rest }).1).timers = rest := by
          rw [wake_timers]
        have hlen : ((e.waker.wake { w with timers := rest }).1).timers.length ≤ n := by
          rw [hw1t]
          have := popMinEntry_length w.timers e rest hp
          omega
        obtain ⟨ih1, ih2, ih3, ih4, ih5, ih6⟩ :=
          ih ((e.waker.wake { w with timers := rest }).1) hlen now
        have hpe : (decide (now < e.deadline)) = false := by simp [hlt]
        have hfilter : w.timers.filter (fun x => decide (now < x.deadline)) =
            rest.filter (fun x => decide (now < x.deadline)) := by
          rw [hl, hr]
          simp [List.filter_append, List.filter_cons, hpe]
        have hmemfired : ∀ x ∈ (Worker.update_timers now
            ((e.waker.wake { w with timers := rest }).1)).2.2, x ∈ w.timers := by
          intro x hx
          have hx1 : x ∈ ((e.waker.wake { w with timers := rest }).1).timers :=
            (List.Perm.mem_iff ih4).2 (List.mem_append_left _ hx)
          rw [hw1t, hr] at hx1
          rw [hl]
          rcases List.mem_append.1 hx1 with h | h
          · exact List.mem_append_left _ h
          · exact List.mem_append_right _ (List.mem_cons_of_mem _ h)
        refine ⟨?_, ?_, ?_, ?_, ?_, ?_⟩
        · intro x hx
          rcases List.mem_cons.1 hx with h | h
          · rw [h]; exact hled
          · exact ih1 x h
        · rw [ih2, hw1t, hfilter]
        · rw [List.sorted_cons]
          refine ⟨?_, ih3⟩
          intro b hb
          exact hmin b (hmemfired b hb)
        · have h1 : List.Perm w.timers
              (e :: ((e.waker.wake { w with timers := rest }).1).timers) := by
            rw [hw1t, hr, hl]
            exact List.perm_middle
          exact h1.trans (List.Perm.cons e ih4)
        · exact ih5
        · have hbase : (e.waker.wake { w with timers := w.timers.filter (fun x => decide (now < x.deadline)) }).1 = { ((e.waker.wake { w with timers := rest }).1) with timers := rest.filter (fun x => decide (now < x.deadline)) } := by
            rw [wake_setTimers_fst e.waker w, wake_setTimers_fst e.waker w rest]
            dsimp only
            rw [hfilter]
          simp only [List.foldl_cons]
          rw [ih6, hw1t, hbase]

/-- C2: invoking a Wake Handle whose Runtime is still alive appends the
referenced Task to the back of the ready queue (or, for the root handle,
sets the root-ready flag), leaves the worker state `Ready` on return,
signals the parking primitive (`notify_one`, waking one waiter) exactly
when the state observed on entry was `Parked`, and touches nothing else
(in particular not the timer heap). -/
theorem claim_C2_wake_protocol (s : SimpleWaker) (w : Worker)
    (h : s.runtime = true) :
    (∀ t, s.task = some t →
      ((s.wake w).1).tasks = w.tasks ++ [t] ∧
      ((s.wake w).1).root_task = w.root_task) ∧
    (s.task = none →
      ((s.wake w).1).root_task = true ∧ ((s.wake w).1).tasks = w.tasks) ∧
    ((s.wake w).1).state = WorkerState.Ready ∧
    ((s.wake w).2 = true ↔ w.state = WorkerState.Parked) ∧
    ((s.wake w).1).timers = w.timers := by
  refine ⟨?_, ?_, wake_state s w h, ?_, wake_timers s w⟩
  · intro t ht
    refine ⟨wake_tasks s w t h ht, ?_⟩
    rw [wake_root]
    simp [ht]
  · intro ht
    refine ⟨?_, wake_tasks_root s w h ht⟩
    rw [wake_root]
    simp [ht, h]
  · rw [wake_snd, h]
    simp

/-- Witness for C2: a live waker for task 3 invoked on a parked worker. -/
theorem claim_C2_wake_protocol_witness :
    (SimpleWaker.wake ⟨true, some 3⟩ ⟨false, [1], [], WorkerState.Parked⟩).1.state
        = WorkerState.Ready ∧
    (SimpleWaker.wake ⟨true, some 3⟩ ⟨false, [1], [], WorkerState.Parked⟩).2 = true :=
  ⟨(claim_C2_wake_protocol ⟨true, some 3⟩ ⟨false, [1], [], WorkerState.Parked⟩ rfl).2.2.1,
   (claim_C2_wake_protocol ⟨true, some 3⟩ ⟨false, [1], [], WorkerState.Parked⟩ rfl).2.2.2.1.2 rfl⟩

/-- C6 counterexample: the claim says invoking a Wake Handle after the
referenced Task has already completed is a no-op; but `wake` does not
consult completion at all — with the Runtime still alive it behaves for
a completed task exactly as for a pending one.  Concretely, waking task
0 on a parked worker with an empty queue (the situation after task 0 has
completed and been dropped from the queue) re-enqueues the task, flips
the state to `Ready` and signals the parking primitive: an observable
state change leading to a re-poll of the completed future, not a
no-op. -/
theorem claim_C6_counterexample :
    SimpleWaker.wake ⟨true, some 0⟩ ⟨false, [], [], WorkerState.Parked⟩
      = (⟨false, [0], [], WorkerState.Ready⟩, true) := rfl

/-- C6 amended: invoking a Wake Handle never faults in the executor and
is safe any number of times; after the Runtime has been torn down (the
weak upgrade fails) it is an exact no-op, however often invoked; but
while the Runtime is alive an invocation — including one arriving after
the referenced Task has completed — is not a no-op: it appends the task
to the back of the ready queue, sets the state to `Ready`, and signals
the parking primitive exactly when the observed state was `Parked`. -/
theorem claim_C6_amended (s : SimpleWaker) (w : Worker) :
    (s.runtime = false → s.wake w = (w, false) ∧
      ∀ n : Nat, (fun x => (s.wake x).1)^[n] w = w) ∧
    (∀ t, s.runtime = true → s.task = some t →
      s.wake w = ({ w with tasks := w.tasks ++ [t], state := WorkerState.Ready },
        decide (w.state = WorkerState.Parked))) := by
  constructor
  · intro h
    have h1 := wake_dead s w h
    refine ⟨h1, fun n => Function.iterate_fixed ?_ n⟩
    show (s.wake w).1 = w
    rw [h1]
  · intro t hr ht
    simp [SimpleWaker.wake, hr, ht]

/-- C3: FIFO drain order — waking tasks T1..TN in order (starting from an
empty ready queue) appends each to the back of the queue, and one drain
pass with no further wakeups polls them in exactly that order. -/
theorem claim_C3_fifo_drain (ts : List Nat) (w : Worker) (fuel : Nat)
    (hw : w.tasks = []) (hfuel : ts.length ≤ fuel) :
    (fireAll ts w).tasks = ts ∧
    (drainLoop (fun _ x => x) fuel (fireAll ts w)).2 = ts := by
  have h1 : (fireAll ts w).tasks = ts := by
    rw [fireAll_tasks, hw]
    simp
  exact ⟨h1, (drainLoop_id ts fuel (fireAll ts w) h1 hfuel).1⟩

/-- Witness for C3: tasks 1, 2, 3 woken in order are drained in order. -/
theorem claim_C3_fifo_drain_witness :
    (drainLoop (fun _ x => x) 3
      (fireAll [1, 2, 3] ⟨false, [], [], WorkerState.Running⟩)).2 = [1, 2, 3] :=
  (claim_C3_fifo_drain [1, 2, 3] ⟨false, [], [], WorkerState.Running⟩ 3 rfl (by decide)).2

/-- C10: repeated wakeups are not coalesced — waking the same task k
times before the next drain pass puts k separate entries into the ready
queue, and the drain pass consequently polls that task k times. -/
theorem claim_C10_no_coalescing (t k : Nat) (w : Worker) (fuel : Nat)
    (hw : w.tasks = []) (hfuel : k ≤ fuel) :
    (fireAll (List.replicate k t) w).tasks = List.replicate k t ∧
    ((drainLoop (fun _ x => x) fuel (fireAll (List.replicate k t) w)).2).count t = k := by
  have h1 : (fireAll (List.replicate k t) w).tasks = List.replicate k t := by
    rw [fireAll_tasks, hw]
    simp
  have h2 := (drainLoop_id (List.replicate k t) fuel (fireAll (List.replicate k t) w)
    h1 (by simpa using hfuel)).1
  rw [h2]
  exact ⟨h1, by simp⟩

/-- Witness for C10: waking task 7 three times yields three polls of 7. -/
theorem claim_C10_no_coalescing_witness :
    ((drainLoop (fun _ x => x) 5
      (fireAll (List.replicate 3 7) ⟨false, [], [], WorkerState.Running⟩)).2).count 7 = 3 :=
  (claim_C10_no_coalescing 7 3 ⟨false, [], [], WorkerState.Running⟩ 5 rfl (by decide)).2

/-- C5: a `sleep_until(deadline)` poll completes exactly when
`deadline ≤ now`, returning the observed instant `now` (hence never an
instant earlier than the deadline); otherwise it reports pending; and
across any sequence of polls starting unregistered it pushes at most one
timer entry into the worker's heap. -/
theorem claim_C5_sleep_until (deadline now : Nat) (reg : Bool) (w : Worker)
    (wk : SimpleWaker) :
    (deadline ≤ now →
      sleepPollBody deadline wk now (some w) reg = Except.ok (some now, reg, some w)) ∧
    (∀ rt v q rt', sleepPollBody deadline wk now rt reg = Except.ok (some v, q, rt') →
      deadline ≤ v ∧ v = now) ∧
    (now < deadline → ∃ w',
      sleepPollBody deadline wk now (some w) reg = Except.ok (none, true, some w')) ∧
    (∀ ns : List Nat,
      ((sleepPolls deadline wk ns (false, w)).2).timers.length ≤ w.timers.length + 1) := by
  refine ⟨?_, ?_, ?_, ?_⟩
  · intro h
    simp [sleepPollBody, h]
  · intro rt v q rt' h
    by_cases hd : deadline ≤ now
    · simp only [sleepPollBody, if_pos hd, Except.ok.injEq, Prod.mk.injEq,
        Option.some.injEq] at h
      exact ⟨h.1 ▸ hd, h.1.symm⟩
    · cases rt with
      | none => cases reg <;> simp [sleepPollBody, hd] at h
      | some w2 => cases reg <;> simp [sleepPollBody, hd] at h
  · intro h
    have hd : ¬ deadline ≤ now := Nat.not_le.2 h
    cases reg with
    | false => exact ⟨{ w with timers := w.timers ++ [⟨deadline, wk⟩] }, by
        simp [sleepPollBody, hd]⟩
    | true => exact ⟨w, by simp [sleepPollBody, hd]⟩
  · intro ns
    simpa using sleepPolls_timers_le deadline wk ns false w

/-- C7 counterexample: the claim says every `sleep_until` call with no
active executor on the thread panics; but a poll whose deadline has
already elapsed (deadline 0, observed now 5) completes successfully with
no runtime installed, taking the early-return path before the
`expect`. -/
theorem claim_C7_counterexample :
    sleepPollBody 0 ⟨true, none⟩ 5 none false = Except.ok (some 5, false, none) := rfl

/-- C7 amended: `spawn` with no active executor always panics; a
`sleep_until` poll with no active executor panics exactly when it must
register a timer (deadline not yet elapsed, not yet registered); a poll
that finds its deadline already elapsed completes without consulting the
executor handle at all. -/
theorem claim_C7_amended (t deadline now : Nat) (wk : SimpleWaker) (reg : Bool) :
    spawn t none = Except.error "runtime should be set" ∧
    (now < deadline → sleepPollBody deadline wk now none false =
      Except.error "runtime should be set") ∧
    (deadline ≤ now → sleepPollBody deadline wk now none reg =
      Except.ok (some now, reg, none)) := by
  refine ⟨rfl, ?_, ?_⟩
  · intro h
    simp [sleepPollBody, Nat.not_le.2 h]
  · intro h
    simp [sleepPollBody, h]

/-- C8: `block_on` saves the previously installed thread-local runtime
handle on entry, runs its driver loop with its own handle installed, and
restores exactly the saved handle on exit whatever the body leaves
behind; in particular a nested invocation started under an outer handle
gives that outer handle back. -/
theorem claim_C8_tl_restore (tl : Option Nat) (rtId : Nat)
    (body : Option Nat → Option Nat × Nat) :
    (blockOnTL tl rtId body).1 = tl ∧
    (blockOnTL tl rtId body).2.2 = some rtId ∧
    (∀ (outerRt innerRt : Nat) (ib : Option Nat → Option Nat × Nat),
      (blockOnTL (some outerRt) innerRt ib).1 = some outerRt) :=
  ⟨rfl, rfl, fun _ _ _ => rfl⟩

/-- C9: the root-ready flag is or-set only by a live root Wake Handle and
never cleared; `Worker::update_timers` (the only other driver-side
state transformer) neither reads the flag nor lets it influence any
other output; and the park loop's transition back to polling the root is
guarded solely by `state = Ready`, for either value of the flag — so the
driver re-polls the root after every wakeup without consulting
`root_task`. -/
theorem claim_C9_root_flag_unread (s : SimpleWaker) (w : Worker) (now : Nat)
    (b root : Bool) (tasks : List Nat) (timers : List TimerEntry) (nb : Bool) :
    ((s.wake w).1).root_task = (w.root_task || (s.runtime && s.task.isNone)) ∧
    ((Worker.update_timers now { w with root_task := b }).1.tasks =
        (Worker.update_timers now w).1.tasks ∧
      (Worker.update_timers now { w with root_task := b }).1.timers =
        (Worker.update_timers now w).1.timers ∧
      (Worker.update_timers now { w with root_task := b }).1.state =
        (Worker.update_timers now w).1.state ∧
      (Worker.update_timers now { w with root_task := b }).2 =
        (Worker.update_timers now w).2) ∧
    Step ⟨⟨root, tasks, timers, WorkerState.Ready⟩, DriverPC.checking, nb⟩
      ⟨⟨root, tasks, timers, WorkerState.Running⟩, DriverPC.polling, nb⟩ := by
  refine ⟨wake_root s w, update_timers_root_blind w.timers.length w le_rfl b now, ?_⟩
  exact Step.parkCheckReady ⟨⟨root, tasks, timers, WorkerState.Ready⟩,
    DriverPC.checking, nb⟩ rfl rfl

/-- C1: no lost wakeup.  In every reachable configuration of the
park/wake protocol: a driver inside a wait either holds a pending
notification or its published state is still `Parked` (so a wake firing
during the wait signals it); undrained ready work forces
`state = Ready` unless the driver is still polling; hence a waiting
driver with ready work pending always has a notification pending and is
never permanently parked.  A wake landing strictly before the park
decision leaves `state = Ready`, which makes newly entering the wait
impossible (the park loop re-checks the state under the lock), and a
notified wait can always step back to the re-check.  The last conjunct
shows the invariant is not vacuous. -/
theorem claim_C1_no_lost_wakeup :
    (∀ c : Config, Reachable c →
      (c.pc = DriverPC.waiting → c.notified = true ∨ c.worker.state = WorkerState.Parked) ∧
      (c.worker.tasks ≠ [] → c.worker.state = WorkerState.Ready ∨ c.pc = DriverPC.polling) ∧
      (c.pc = DriverPC.waiting → c.worker.tasks ≠ [] → c.notified = true)) ∧
    (∀ c c' : Config, Step c c' → c.worker.state = WorkerState.Ready →
      c'.pc = DriverPC.waiting → c.pc = DriverPC.waiting) ∧
    (∀ c : Config, c.pc = DriverPC.waiting → c.notified = true →
      Step c { c with pc := DriverPC.checking, notified := false }) ∧
    (∃ c : Config, Reachable c ∧ c.pc = DriverPC.waiting ∧
      c.worker.tasks ≠ [] ∧ c.notified = true) := by
  refine ⟨?_, ?_, ?_, ?_⟩
  · intro c hr
    obtain ⟨i1, i2⟩ := parkInv_reachable c hr
    refine ⟨i1, i2, ?_⟩
    intro hpc ht
    rcases i2 ht with hs | hs
    · rcases i1 hpc with hn | hn
      · exact hn
      · rw [hs] at hn
        exact absurd hn (by decide)
    · rw [hpc] at hs
      exact absurd hs (by decide)
  · intro c c' hstep hready hpc'
    cases hstep with
    | wakeFire s => simpa using hpc'
    | spawnTask t hpc => simp at hpc'
    | drainPop t rest hpc hq => simp at hpc'
    | drainDone hpc hq => simp at hpc'
    | parkCheckReady hpc hs => simp at hpc'
    | parkCheckSleep hpc hs => exact absurd hready hs
    | parkSignalled hpc hn => simp at hpc'
    | parkTimeout hpc => simp at hpc'
  · intro c hpc hn
    exact Step.parkSignalled c hpc hn
  · refine ⟨⟨⟨false, [0], [], WorkerState.Ready⟩, DriverPC.waiting, true⟩, ?_, rfl,
      by decide, rfl⟩
    have s1 : Step initConfig { initConfig with pc := DriverPC.checking } :=
      Step.drainDone initConfig rfl rfl
    have s2 : Step { initConfig with pc := DriverPC.checking }
        ⟨⟨false, [], [], WorkerState.Parked⟩, DriverPC.waiting, false⟩ :=
      Step.parkCheckSleep { initConfig with pc := DriverPC.checking } rfl (by decide)
    have s3 : Step ⟨⟨false, [], [], WorkerState.Parked⟩, DriverPC.waiting, false⟩
        ⟨⟨false, [0], [], WorkerState.Ready⟩, DriverPC.waiting, true⟩ :=
      Step.wakeFire ⟨⟨false, [], [], WorkerState.Parked⟩, DriverPC.waiting, false⟩
        ⟨true, some 0⟩
    exact Relation.ReflTransGen.tail
      (Relation.ReflTransGen.tail (Relation.ReflTransGen.single s1) s2) s3

/-- C4: servicing timers at observation `now` pops exactly the entries
whose deadline is ≤ now and no others (the remaining heap is the not-yet-
due entries, nothing lost or duplicated), pops them in ascending deadline
order, invokes each popped entry's waker in pop order against the live
worker (the lock having been released around each invocation), and
returns the duration to the earliest remaining deadline, or no timeout
when the heap is left empty. -/
theorem claim_C4_timer_service (now : Nat) (w : Worker) :
    (∀ e ∈ (Worker.update_timers now w).2.2, e.deadline ≤ now) ∧
    (∀ e ∈ ((Worker.update_timers now w).1).timers, now < e.deadline) ∧
    ((Worker.update_timers now w).1).timers =
      w.timers.filter (fun e => decide (now < e.deadline)) ∧
    List.Sorted (fun a b : TimerEntry => a.deadline ≤ b.deadline)
      ((Worker.update_timers now w).2.2) ∧
    List.Perm w.timers
      ((Worker.update_timers now w).2.2 ++ ((Worker.update_timers now w).1).timers) ∧
    ((Worker.update_timers now w).2.1 = none ↔
      ((Worker.update_timers now w).1).timers = []) ∧
    ((Worker.update_timers now w).2.1 =
      Option.map (fun p : TimerEntry × List TimerEntry => p.1.deadline - now)
        (popMinEntry (((Worker.update_timers now w).1).timers))) ∧
    (Worker.update_timers now w).1 =
      List.foldl (fun a e => (e.waker.wake a).1)
        { w with timers := w.timers.filter (fun e => decide (now < e.deadline)) }
        ((Worker.update_timers now w).2.2) := by
  obtain ⟨h1, h2, h3, h4, h5, h6⟩ := update_timers_spec w.timers.length w le_rfl now
  refine ⟨h1, ?_, h2, h3, h4, ?_, h5, h6⟩
  · intro e he
    rw [h2] at he
    have := List.of_mem_filter he
    simpa using this
  · rw [h5]
    constructor
    · intro h
      rcases hpm : popMinEntry ((Worker.update_timers now w).1).timers with _ | pr
      · exact (popMinEntry_eq_none _).1 hpm
      · rw [hpm] at h
        simp at h
    · intro h
      rw [(popMinEntry_eq_none _).2 h]
      rfl
